import Mathlib

/-!
Verification of the quire record-mapping and query-filtering engine
(`pkg/quire/table.go`) against its natural-language specification.

The Go source is shallowly embedded as executable Lean definitions:

* a grid cell (`interface{}` holding a string, an integer-valued number, or
  a boolean) becomes the inductive type `Cell`;
* `fmt.Sprintf("%v", cell)` becomes `goFormat`;
* `strconv.ParseFloat/ParseInt/ParseUint/ParseBool` become `parseGoFloat`,
  `parseGoInt`, `parseGoUint`, `parseGoBool`.  The float model covers the
  full `ParseFloat` contract: decimal and hexadecimal mantissas with Go's
  underscore rule, the case-insensitive Inf/NaN spellings, IEEE-754
  round-to-nearest-even to `binary64` (the finite result carried as its
  exact rational value), underflow to zero with a nil error, and `none`
  exactly where Go returns an error — a syntax error or the overflow
  `ErrRange`.  Numeric cells are modelled with integral values, whose Go
  rendering is the plain decimal string;
* Go string comparison (`<`, `>`) is byte-lexicographic; on valid UTF-8 that
  order coincides with code-point order, modelled by `cmpCharList` over the
  character list.
-/

namespace Quire

set_option maxRecDepth 16384

/-- Decidable equality for `Except`, used to evaluate concrete runs of the
embedded operations. -/
instance {ε α : Type} [DecidableEq ε] [DecidableEq α] : DecidableEq (Except ε α) :=
  fun x y =>
    match x, y with
    | .ok a, .ok b =>
      if h : a = b then .isTrue (by rw [h]) else .isFalse (by simp [h])
    | .error a, .error b =>
      if h : a = b then .isTrue (by rw [h]) else .isFalse (by simp [h])
    | .ok _, .error _ => .isFalse (by simp)
    | .error _, .ok _ => .isFalse (by simp)

/-! ### Characters and decimal digits -/

/-- The Go byte-range test `'0' <= c && c <= '9'`, expressed on code points. -/
def isDigit (c : Char) : Bool := 48 ≤ c.toNat && c.toNat ≤ 57

/-- The decimal digit character for `n < 10`. -/
def digitChar (n : Nat) : Char := Char.ofNat (48 + n)

/-- Fuelled most-significant-first decimal digit expansion of a natural. -/
def natDigitsAux : Nat → Nat → List Char
  | 0, _ => []
  | fuel + 1, n =>
    if n < 10 then [digitChar n]
    else natDigitsAux fuel (n / 10) ++ [digitChar (n % 10)]

/-- Decimal digits of a natural number, as Go's `%v`/`%d` renders it. -/
def natDigits (n : Nat) : List Char := natDigitsAux (n + 1) n

/-- Go `%v`/`%d` rendering of an integer. -/
def intToDec (n : Int) : String :=
  if n < 0 then ⟨'-' :: natDigits n.natAbs⟩ else ⟨natDigits n.toNat⟩

/-- Base-10 value of a digit list (the accumulator loop of Go `ParseUint`). -/
def digitsToNat (l : List Char) : Nat :=
  l.foldl (fun a c => a * 10 + (c.toNat - 48)) 0

/-! ### Cells -/

/-- A grid cell: the untyped scalar held in a Go `interface\x7b\x7d`.  Numbers are
modelled with integral values (see the file header). -/
inductive Cell where
  | str (s : String)
  | int (n : Int)
  | bool (b : Bool)
  | other (repr : String)
deriving DecidableEq

/-- Go `fmt.Sprintf("%v", cell)`.  An `other` cell (for example a pointer
or map boxed into the row by encoding) carries its `%v` rendering. -/
def goFormat : Cell → String
  | .str s => s
  | .int n => intToDec n
  | .bool b => if b then "true" else "false"
  | .other r => r

/-! ### Go `strconv` parsers -/

/-- Strip one leading sign character, reporting whether it was a minus
(the sign handling shared by Go `ParseInt` and `ParseFloat`). -/
def splitSign (l : List Char) : Bool × List Char :=
  match l with
  | [] => (false, [])
  | c :: r => if c = '-' then (true, r) else if c = '+' then (false, r) else (false, l)

/-- Go `strconv.ParseUint(s, 10, 64)`: decimal digits only, no sign, value
below `2 ^ 64`. -/
def parseGoUint (s : String) : Option Nat :=
  let l := s.data
  if l ≠ [] ∧ l.all isDigit then
    let v := digitsToNat l
    if v < 2 ^ 64 then some v else none
  else none

/-- Go `strconv.ParseInt(s, 10, 64)`: optional sign, decimal digits, value in
the `int64` range. -/
def parseGoInt (s : String) : Option Int :=
  let p := splitSign s.data
  if p.2 ≠ [] ∧ p.2.all isDigit then
    let v := digitsToNat p.2
    if p.1 then
      if v ≤ 2 ^ 63 then some (-(v : Int)) else none
    else
      if v < 2 ^ 63 then some ((v : Int)) else none
  else none

/-- Go `strconv.ParseBool`: exactly the twelve accepted spellings. -/
def parseGoBool (s : String) : Option Bool :=
  if s = "1" ∨ s = "t" ∨ s = "T" ∨ s = "true" ∨ s = "TRUE" ∨ s = "True" then some true
  else if s = "0" ∨ s = "f" ∨ s = "F" ∨ s = "false" ∨ s = "FALSE" ∨ s = "False" then some false
  else none

/-! ### The binary64 model behind `strconv.ParseFloat` -/

/-- The result of a successful Go `ParseFloat`: a finite `float64` carried
as its exact rational value, an infinity, or NaN. -/
inductive GoFloat where
  | finite (q : Rat)
  | posInf
  | negInf
  | nan
deriving DecidableEq

/-- Fuelled bit length: the number of binary digits of a natural. -/
def bitLenAux : Nat → Nat → Nat
  | 0, _ => 0
  | fuel + 1, n => if n = 0 then 0 else bitLenAux fuel (n / 2) + 1

/-- Bit length of a natural (`0 → 0`, `2^(bitLen n - 1) ≤ n < 2^(bitLen n)`
for `n > 0`); the fuel `n + 1` dominates `log2 n + 1`. -/
def bitLen (n : Nat) : Nat := bitLenAux (n + 1) n

/-- Whether the positive rational `a / d` is at least `2 ^ e`. -/
def ratGEpow2 (a d : Nat) (e : Int) : Bool :=
  if 0 ≤ e then d * 2 ^ e.toNat ≤ a else d ≤ a * 2 ^ (-e).toNat

/-- IEEE-754 round-to-nearest-even of the rational `a / d` (with sign
`neg`) to a `binary64` value: `none` exactly when the rounded magnitude
reaches `2 ^ 1024`, i.e. when Go reports `ErrRange`; underflow rounds to
zero without error, as in `strconv`. -/
def roundToFloat64 (neg : Bool) (a d : Nat) : Option GoFloat :=
  if a = 0 then some (.finite 0)
  else if d * (2 ^ 1024 - 2 ^ 970) ≤ a then none
  else
    let e0 : Int := (bitLen a : Int) - (bitLen d : Int)
    let e : Int := if ratGEpow2 a d e0 then e0 else e0 - 1
    let k : Int := max (e - 52) (-1074)
    let p : Nat × Nat := if 0 ≤ k then (a, d * 2 ^ k.toNat) else (a * 2 ^ (-k).toNat, d)
    let n0 := p.1 / p.2
    let r2 := 2 * (p.1 % p.2)
    let n := if r2 > p.2 then n0 + 1
      else if r2 < p.2 then n0
      else if n0 % 2 = 0 then n0 else n0 + 1
    let sn : Int := if neg then -(Int.ofNat n) else Int.ofNat n
    some (.finite (if 0 ≤ k then mkRat (sn * 2 ^ k.toNat) 1 else mkRat sn (2 ^ (-k).toNat)))

/-- Round the decimal value `±m * 10 ^ E` to `binary64`, with the same
obvious-overflow (`dp > 310`, range error) and obvious-underflow
(`dp < -330`, zero without error) short-cuts as `decimal.floatBits`. -/
def decToFloat (neg : Bool) (m : Nat) (E : Int) : Option GoFloat :=
  if m = 0 then some (.finite 0)
  else
    let dp : Int := E + (natDigits m).length
    if dp > 310 then none
    else if dp < -330 then some (.finite 0)
    else if 0 ≤ E then roundToFloat64 neg (m * 10 ^ E.toNat) 1
    else roundToFloat64 neg m (10 ^ (-E).toNat)

/-- Round the hexadecimal value `±m * 2 ^ E` to `binary64`, with the
analogous obvious-overflow and obvious-underflow short-cuts. -/
def hexToFloat (neg : Bool) (m : Nat) (E : Int) : Option GoFloat :=
  if m = 0 then some (.finite 0)
  else
    let bp : Int := E + (bitLen m : Int)
    if bp > 1024 then none
    else if bp < -1080 then some (.finite 0)
    else if 0 ≤ E then roundToFloat64 neg (m * 2 ^ E.toNat) 1
    else roundToFloat64 neg m (2 ^ (-E).toNat)

/-- The Go byte-range test for an ASCII hexadecimal digit. -/
def isHexDigit (c : Char) : Bool :=
  (48 ≤ c.toNat && c.toNat ≤ 57) || (97 ≤ c.toNat && c.toNat ≤ 102) ||
    (65 ≤ c.toNat && c.toNat ≤ 70)

/-- Numeric value of a hexadecimal digit character. -/
def hexVal (c : Char) : Nat :=
  if c.toNat ≤ 57 then c.toNat - 48
  else if c.toNat ≤ 70 then c.toNat - 55
  else c.toNat - 87

/-- Base-16 value of a hexadecimal digit list. -/
def hexToNat (l : List Char) : Nat := l.foldl (fun a c => a * 16 + hexVal c) 0

/-- The scan states of Go's `underscoreOK`: `0` start, `1` after a digit or
base prefix, `2` after an underscore, `3` after any other character. -/
def underscoreOKLoop (hex : Bool) : Nat → List Char → Bool
  | saw, [] => saw ≠ 2
  | saw, c :: rest =>
    if isDigit c || (hex && isHexDigit c) then underscoreOKLoop hex 1 rest
    else if c = '_' then (if saw = 1 then underscoreOKLoop hex 2 rest else false)
    else if saw = 2 then false
    else underscoreOKLoop hex 3 rest

/-- Go `strconv.underscoreOK`: underscores may sit only between digits (or
directly after a base prefix). -/
def underscoreOK (l : List Char) : Bool :=
  let l1 := match l with
    | c :: r => if c = '-' ∨ c = '+' then r else l
    | [] => l
  match l1 with
  | '0' :: x :: rest =>
    if x = 'x' ∨ x = 'X' then underscoreOKLoop true 1 rest
    else underscoreOKLoop false 0 l1
  | _ => underscoreOKLoop false 0 l1

/-- The decimal-mantissa branch of `readFloat`: digits, optional fraction,
optional `e`/`E` exponent, fully consumed. -/
def parseDecMant (neg : Bool) (l : List Char) : Option GoFloat :=
  let ip := l.takeWhile isDigit
  let l2 := l.dropWhile isDigit
  let fpRest : List Char × List Char :=
    match l2 with
    | '.' :: r => (r.takeWhile isDigit, r.dropWhile isDigit)
    | _ => ([], l2)
  if ip ++ fpRest.1 = [] then none
  else
    let m := digitsToNat (ip ++ fpRest.1)
    let fl : Int := fpRest.1.length
    match fpRest.2 with
    | [] => decToFloat neg m (-fl)
    | e :: r =>
      if e = 'e' ∨ e = 'E' then
        let q := splitSign r
        if q.2 ≠ [] ∧ q.2.all isDigit then
          let ev : Int := digitsToNat q.2
          decToFloat neg m ((if q.1 then -ev else ev) - fl)
        else none
      else none

/-- The hexadecimal-mantissa branch of `readFloat` (after `0x`/`0X`): hex
digits, optional fraction, mandatory `p`/`P` binary exponent. -/
def parseHexMant (neg : Bool) (l : List Char) : Option GoFloat :=
  let ip := l.takeWhile isHexDigit
  let l2 := l.dropWhile isHexDigit
  let fpRest : List Char × List Char :=
    match l2 with
    | '.' :: r => (r.takeWhile isHexDigit, r.dropWhile isHexDigit)
    | _ => ([], l2)
  if ip ++ fpRest.1 = [] then none
  else
    let m := hexToNat (ip ++ fpRest.1)
    let fl : Int := fpRest.1.length
    match fpRest.2 with
    | [] => none
    | p :: r =>
      if p = 'p' ∨ p = 'P' then
        let q := splitSign r
        if q.2 ≠ [] ∧ q.2.all isDigit then
          let ev : Int := digitsToNat q.2
          hexToFloat neg m ((if q.1 then -ev else ev) - 4 * fl)
        else none
      else none

/-- `ParseFloat` on an underscore-free character list: the case-insensitive
Inf/NaN spellings accepted by `strconv.special`, then the decimal or
hexadecimal number grammar. -/
def parseGoFloatCore (l : List Char) : Option GoFloat :=
  let low := l.map Char.toLower
  if low = ['n', 'a', 'n'] then some .nan
  else if low = ['i', 'n', 'f'] ∨ low = ['i', 'n', 'f', 'i', 'n', 'i', 't', 'y'] ∨
      low = ['+', 'i', 'n', 'f'] ∨
      low = ['+', 'i', 'n', 'f', 'i', 'n', 'i', 't', 'y'] then some .posInf
  else if low = ['-', 'i', 'n', 'f'] ∨
      low = ['-', 'i', 'n', 'f', 'i', 'n', 'i', 't', 'y'] then some .negInf
  else
    let p := splitSign l
    match p.2 with
    | '0' :: x :: rest =>
      if x = 'x' ∨ x = 'X' then parseHexMant p.1 rest
      else parseDecMant p.1 p.2
    | _ => parseDecMant p.1 p.2

/-- Go `strconv.ParseFloat(s, 64)`, modelled as `some` of the parsed value
(see `GoFloat`) exactly when Go returns a nil error, and `none` when Go
reports a syntax error or the overflow `ErrRange`; underflow yields zero
with a nil error, as in `strconv`. -/
def parseGoFloat (s : String) : Option GoFloat :=
  if s.data.contains '_' then
    if underscoreOK s.data then parseGoFloatCore (s.data.filter (fun c => c ≠ '_'))
    else none
  else parseGoFloatCore s.data

/-! ### The comparison primitive `compareValues` -/

/-- The `float64` order `<` on parse results: infinities at the ends, exact
rational order between finite values, and NaN below, above, and equal to
nothing — every comparison against NaN is false, as in Go. -/
def ltF : GoFloat → GoFloat → Bool
  | .nan, _ => false
  | _, .nan => false
  | .negInf, .negInf => false
  | .negInf, _ => true
  | _, .negInf => false
  | .posInf, _ => false
  | .finite _, .posInf => true
  | .finite x, .finite y => decide (x < y)

/-- The numeric branch of `compareValues`: `aNum < bNum`, `aNum > bNum`,
else `0`. -/
def numCmp (x y : GoFloat) : Int :=
  if ltF x y then -1 else if ltF y x then 1 else 0

/-- Byte-lexicographic comparison of character lists: Go's `<`/`>` on
strings (UTF-8 byte order equals code-point order). -/
def cmpCharList : List Char → List Char → Int
  | [], [] => 0
  | [], _ :: _ => -1
  | _ :: _, [] => 1
  | a :: as, b :: bs =>
    if a.toNat < b.toNat then -1
    else if b.toNat < a.toNat then 1
    else cmpCharList as bs

/-- The string-fallback branch of `compareValues`. -/
def strCmp (a b : String) : Int := cmpCharList a.data b.data

/-- `compareValues` from `table.go`: stringify both operands with `%v`, try
`ParseFloat` on both, compare numerically if both parse, otherwise compare
the strings. -/
def compareValues (a b : Cell) : Int :=
  match parseGoFloat (goFormat a), parseGoFloat (goFormat b) with
  | some x, some y => numCmp x y
  | _, _ => strCmp (goFormat a) (goFormat b)

/-! ### Column lookup and predicate evaluation -/

/-- A `Filter` triple.  The value is a cell, as Go holds it in an
`interface\x7b\x7d`. -/
structure FilterM where
  column : String
  op : String
  value : Cell
deriving DecidableEq

/-- The header-lookup loop shared by `matchesFilter`, `Query.matchesFilters`
and `scanRow`: first index whose cell is the column-name string (Go `==` on
an `interface\x7b\x7d` and a `string` requires the dynamic type to be `string`). -/
def findCol : List Cell → String → Option Nat
  | [], _ => none
  | c :: rest, name =>
    if c = .str name then some 0 else (findCol rest name).map (· + 1)

/-- ASCII lower-casing, the fragment of Go `strings.ToLower` the model uses. -/
def toLowerStr (s : String) : String := ⟨s.data.map Char.toLower⟩

/-- Whether the second list is an initial segment of the first. -/
def leadsWith : List Char → List Char → Bool
  | _, [] => true
  | [], _ :: _ => false
  | a :: as, b :: bs => a = b && leadsWith as bs

/-- Go `strings.Contains` on the underlying characters. -/
def containsSub (s sub : List Char) : Bool :=
  match s with
  | [] => sub.isEmpty
  | _ :: rest => leadsWith s sub || containsSub rest sub

/-- `matchesOperator` from `table.go`. -/
def matchesOperator (cell : Cell) (op : String) (value : Cell) : Bool :=
  let cellStr := goFormat cell
  let valueStr := goFormat value
  if op = "=" ∨ op = "==" then cellStr = valueStr
  else if op = "!=" then cellStr ≠ valueStr
  else if op = ">" then compareValues cell value > 0
  else if op = ">=" then compareValues cell value ≥ 0
  else if op = "<" then compareValues cell value < 0
  else if op = "<=" then compareValues cell value ≤ 0
  else if op = "contains" ∨ op = "like" then
    containsSub (toLowerStr cellStr).data (toLowerStr valueStr).data
  else false

/-- `matchesFilter` from `table.go`: resolve the column in the header, treat
a missing column or a short row as no match. -/
def matchesFilter (row : List Cell) (headers : List Cell) (f : FilterM) : Bool :=
  match findCol headers f.column with
  | none => false
  | some colIdx =>
    match row[colIdx]? with
    | none => false
    | some cell => matchesOperator cell f.op f.value

/-- `Query.matchesFilters`: logical AND of all accumulated filters, each
resolved exactly as in `matchesFilter`. -/
def matchesFilters (filters : List FilterM) (row : List Cell) (headers : List Cell) : Bool :=
  filters.all (fun f =>
    match findCol headers f.column with
    | none => false
    | some colIdx =>
      match row[colIdx]? with
      | none => false
      | some cell => matchesOperator cell f.op f.value)

/-! ### The query pipeline -/

/-- `Query.applyFilters`: keep the rows matching every filter; an empty
filter list keeps everything. -/
def applyFilters (filters : List FilterM) (rows : List (List Cell))
    (headers : List Cell) : List (List Cell) :=
  if filters = [] then rows
  else rows.filter (fun row => matchesFilters filters row headers)

/-- `Query.applySort`: returns its input unchanged. -/
def applySort (rows : List (List Cell)) (_headers : List Cell) : List (List Cell) :=
  rows

/-- `Query.applyLimit`: truncate to `limit` rows when `0 < limit < len`. -/
def applyLimit (limit : Int) (rows : List (List Cell)) : List (List Cell) :=
  if 0 < limit ∧ limit < (rows.length : Int) then rows.take limit.toNat
  else rows

/-- The row-producing part of `Query.Get` on an already-fetched grid:
fewer than two rows yields no results, otherwise filter, (no-op) sort when
`orderBy` is set, then limit.  The `descending` flag is carried but, as in
the source, never read. -/
def getRows (filters : List FilterM) (limit : Int) (orderBy : String)
    (_descending : Bool) (grid : List (List Cell)) : List (List Cell) :=
  match grid with
  | headers :: row0 :: rows =>
    let filtered := applyFilters filters (row0 :: rows) headers
    let sorted := if orderBy ≠ "" then applySort filtered headers else filtered
    applyLimit limit sorted
  | _ => []

/-! ### Records and the codec -/

/-- The destination field kinds the model covers: `reflect.String`, 64-bit
`reflect.Int`, 64-bit `reflect.Uint`, `reflect.Bool`, and `kother` — the
kinds `setField`'s switch leaves untouched (pointer, map, interface, chan,
func).  The `Float32/Float64` branch and the JSON-round-tripped
`Struct`/`Slice` branch of `setField` are outside the model. -/
inductive Kind where
  | kstr
  | kint
  | kuint
  | kbool
  | kother
deriving DecidableEq

/-- A typed field value.  A `vother` value (a pointer, map, ...) carries
its `%v` rendering, which is all the engine ever observes of it. -/
inductive Value where
  | vstr (s : String)
  | vint (n : Int)
  | vuint (n : Nat)
  | vbool (b : Bool)
  | vother (repr : String)
deriving DecidableEq

/-- One declared struct field: its bound column name (tag or field name),
its kind, whether its tag is the ignore marker, and its current value. -/
structure Field where
  name : String
  kind : Kind
  ignored : Bool
  val : Value
deriving DecidableEq

/-- Whether a value inhabits a kind, including the machine-integer ranges
a Go value of that kind physically satisfies. -/
def wellTypedB : Kind → Value → Bool
  | .kstr, .vstr _ => true
  | .kint, .vint n => decide (-(2 ^ 63) ≤ n) && decide (n < 2 ^ 63)
  | .kuint, .vuint n => decide (n < 2 ^ 64)
  | .kbool, .vbool _ => true
  | .kother, .vother _ => true
  | _, _ => false

/-- The zero value of each kind (a freshly `reflect.New`-ed field); a nil
pointer or map renders as `<nil>` under `%v`. -/
def zeroValue : Kind → Value
  | .kstr => .vstr ""
  | .kint => .vint 0
  | .kuint => .vuint 0
  | .kbool => .vbool false
  | .kother => .vother "<nil>"

/-- A field reset to its zero value, as `scanIntoSlice` allocates it. -/
def zeroOf (f : Field) : Field := { f with val := zeroValue f.kind }

/-- `field.Interface()` as a grid cell: the identity pass-through of
serialization. -/
def encodeValue : Value → Cell
  | .vstr s => .str s
  | .vint n => .int n
  | .vuint n => .int n
  | .vbool b => .bool b
  | .vother r => .other r

/-- `structToValues`: the values of the non-ignored fields, in declaration
order. -/
def structToValues : List Field → List Cell
  | [] => []
  | f :: fs =>
    if f.ignored then structToValues fs else encodeValue f.val :: structToValues fs

/-- The value produced by the `setField` switch for one kind; for the
untouched kinds (`kother`) the switch has no matching case that sets the
field, so the destination keeps its current value. -/
def setFieldVal (k : Kind) (cur : Value) (cell : Cell) : Value :=
  let valueStr := goFormat cell
  match k with
  | .kstr => .vstr valueStr
  | .kint =>
    match parseGoInt valueStr with
    | some i => .vint i
    | none => cur
  | .kuint =>
    match parseGoUint valueStr with
    | some u => .vuint u
    | none => cur
  | .kbool =>
    match parseGoBool valueStr with
    | some b => .vbool b
    | none => cur
  | .kother => cur

/-- `setField` from `table.go`: best-effort coercion; every branch falls
through to the final `return nil`, so no input produces an error. -/
def setField (k : Kind) (cur : Value) (cell : Cell) : Except String Value :=
  .ok (setFieldVal k cur cell)

/-- The effect of one `scanRow` loop iteration on one destination field. -/
def scanStep (row : List Cell) (headers : List Cell) (f : Field) : Field :=
  if f.ignored then f
  else
    match findCol headers f.name with
    | none => f
    | some colIdx =>
      match row[colIdx]? with
      | none => f
      | some cell => { f with val := setFieldVal f.kind f.val cell }

/-- `scanRow` from `table.go`: walk the destination fields, skip ignored
ones and unresolved columns, coerce the resolved cell, and abort with a
wrapped error if `setField` ever failed. -/
def scanRow (row : List Cell) (headers : List Cell) : List Field → Except String (List Field)
  | [] => .ok []
  | f :: fs => do
    let f' ←
      if f.ignored then .ok f
      else
        match findCol headers f.name with
        | none => .ok f
        | some colIdx =>
          match row[colIdx]? with
          | none => .ok f
          | some cell =>
            match setField f.kind f.val cell with
            | .ok v => .ok { f with val := v }
            | .error e => .error ("failed to set field " ++ f.name ++ ": " ++ e)
    let fs' ← scanRow row headers fs
    .ok (f' :: fs')

/-! ### Column letters -/

/-- Fuelled form of the `columnIndexToLetter` loop. -/
def colLetterAux : Nat → Nat → List Char
  | 0, _ => []
  | fuel + 1, i =>
    if i < 26 then [Char.ofNat (65 + i)]
    else colLetterAux fuel (i / 26 - 1) ++ [Char.ofNat (65 + i % 26)]

/-- The letters produced by `columnIndexToLetter` for a non-negative index. -/
def colLetterNat (i : Nat) : List Char := colLetterAux (i + 1) i

/-- `columnIndexToLetter` from `table.go`. -/
def columnIndexToLetter (i : Int) : String :=
  if i < 0 then "A" else ⟨colLetterNat i.toNat⟩

/-- The bijective base-26 numeral value of a letter list, offset by one:
the inverse reading of `colLetterNat`. -/
def letterVal (l : List Char) : Nat :=
  l.foldl (fun a c => a * 26 + (c.toNat - 64)) 0

/-! ### Table operations -/

/-- `Table.Update`: negative indices are rejected, otherwise one `Write`
against the range `name!A(r+2):(letter)(r+2)`. -/
def update (name : String) (rowIndex : Int) (record : List Field) :
    Except String (String × List (List Cell)) :=
  if rowIndex < 0 then .error "row index cannot be negative"
  else
    let values := structToValues record
    let actualRow := rowIndex + 2
    let endCol := columnIndexToLetter ((values.length : Int) - 1)
    .ok (name ++ "!A" ++ intToDec actualRow ++ ":" ++ endCol ++ intToDec actualRow,
      [values])

/-- `Table.Delete`: negative indices are rejected, otherwise one
`DeleteRows` call for the single index `rowIndex + 1`. -/
def deleteRow (name : String) (rowIndex : Int) : Except String (String × List Int) :=
  if rowIndex < 0 then .error "row index cannot be negative"
  else .ok (name, [rowIndex + 1])

/-- The 0-based positions of the data rows matching a filter (the
collection loop of `UpdateWhere` and `DeleteWhere`). -/
def matchingIndices (rows : List (List Cell)) (headers : List Cell) (f : FilterM) :
    List Nat :=
  (rows.enum.filter (fun p => matchesFilter p.2 headers f)).map (·.1)

/-- Descending sort of the collected indices:
`sort.Sort(sort.Reverse(sort.IntSlice(indices)))`. -/
def sortDesc (l : List Int) : List Int := l.insertionSort (· ≥ ·)

/-- `Table.DeleteWhere` on an already-fetched grid: the batched
`DeleteRows` calls it issues. -/
def deleteWhere (name : String) (grid : List (List Cell)) (f : FilterM) :
    List (String × List Int) :=
  match grid with
  | headers :: row0 :: rows =>
    let indices := (matchingIndices (row0 :: rows) headers f).map (fun i => Int.ofNat i + 1)
    if indices = [] then []
    else [(name, sortDesc indices)]
  | _ => []

/-- `Table.UpdateWhere` on an already-fetched grid: the `Write` calls it
issues, one per matching row, in ascending row order. -/
def updateWhere (name : String) (grid : List (List Cell)) (f : FilterM)
    (record : List Field) : List (String × List (List Cell)) :=
  match grid with
  | headers :: row0 :: rows =>
    let indices := matchingIndices (row0 :: rows) headers f
    if indices = [] then []
    else
      let values := structToValues record
      let endCol := columnIndexToLetter ((values.length : Int) - 1)
      indices.map (fun idx =>
        (name ++ "!A" ++ intToDec ((idx : Int) + 2) ++ ":" ++ endCol ++
          intToDec ((idx : Int) + 2), [values]))
  | _ => []

/-! ## Helper lemmas on the comparison primitives -/

theorem cmpCharList_range (x y : List Char) :
    cmpCharList x y = -1 ∨ cmpCharList x y = 0 ∨ cmpCharList x y = 1 := by
  induction x generalizing y with
  | nil => cases y <;> simp [cmpCharList]
  | cons a as ih =>
    cases y with
    | nil => simp [cmpCharList]
    | cons b bs =>
      simp only [cmpCharList]
      split_ifs with h1 h2
      · exact Or.inl rfl
      · exact Or.inr (Or.inr rfl)
      · exact ih bs

theorem cmpCharList_antisymm (x y : List Char) :
    cmpCharList y x = -cmpCharList x y := by
  induction x generalizing y with
  | nil => cases y <;> simp [cmpCharList]
  | cons a as ih =>
    cases y with
    | nil => simp [cmpCharList]
    | cons b bs =>
      simp only [cmpCharList]
      split_ifs <;> first | omega | exact ih bs

theorem cmpCharList_trans_neg (x y z : List Char) (h1 : cmpCharList x y = -1)
    (h2 : cmpCharList y z = -1) : cmpCharList x z = -1 := by
  induction x generalizing y z with
  | nil =>
    cases z with
    | nil =>
      cases y with
      | nil => simp [cmpCharList] at h1
      | cons b bs => simp [cmpCharList] at h2
    | cons c cs => simp [cmpCharList]
  | cons a as ih =>
    cases y with
    | nil => simp [cmpCharList] at h1
    | cons b bs =>
      cases z with
      | nil => simp [cmpCharList] at h2
      | cons c cs =>
        simp only [cmpCharList] at h1 h2 ⊢
        split_ifs at h1 with ha1 ha2 <;> split_ifs at h2 with hb1 hb2 <;>
          split_ifs with hc1 hc2 <;>
          first
            | rfl
            | omega
            | exact ih bs cs h1 h2

theorem ltF_asymm {x y : GoFloat} (h : ltF x y = true) : ltF y x = false := by
  cases x <;> cases y <;> simp_all [ltF]
  exact le_of_lt h

theorem ltF_trans {x y z : GoFloat} (h1 : ltF x y = true) (h2 : ltF y z = true) :
    ltF x z = true := by
  cases x <;> cases y <;> cases z <;> simp_all [ltF]
  exact lt_trans h1 h2

theorem numCmp_neg_iff (x y : GoFloat) : numCmp x y = -1 ↔ ltF x y = true := by
  unfold numCmp
  split_ifs with h1 h2 <;> simp [h1]

theorem numCmp_antisymm (x y : GoFloat) : numCmp y x = -numCmp x y := by
  by_cases h1 : ltF x y = true
  · simp [numCmp, h1, ltF_asymm h1]
  · by_cases h2 : ltF y x = true
    · simp [numCmp, h1, h2, ltF_asymm h2]
    · simp [numCmp, h1, h2]

theorem compareValues_eq_num {a b : Cell} {x y : GoFloat}
    (ha : parseGoFloat (goFormat a) = some x) (hb : parseGoFloat (goFormat b) = some y) :
    compareValues a b = numCmp x y := by
  unfold compareValues
  rw [ha, hb]

theorem compareValues_eq_str {a b : Cell}
    (h : parseGoFloat (goFormat a) = none ∨ parseGoFloat (goFormat b) = none) :
    compareValues a b = strCmp (goFormat a) (goFormat b) := by
  unfold compareValues
  cases ha : parseGoFloat (goFormat a) <;> cases hb : parseGoFloat (goFormat b) <;>
    first
      | rfl
      | (rw [ha, hb] at h; simp at h)

/-! ## C1: the comparison `compareValues` -/

/-- Counterexample to C1: `compareValues` is not transitive, hence not a
strict total order.  Numerically `10 > 9`, but the non-numeric string
`"5a"` sits between them lexicographically, so `10 < 5a < 9` while
`10 > 9`. -/
theorem compareValues_not_transitive :
    compareValues (.str "10") (.str "5a") = -1 ∧
    compareValues (.str "5a") (.str "9") = -1 ∧
    compareValues (.str "10") (.str "9") = 1 := by decide

/-- C1 (amended): `compareValues` always returns one of `-1`, `0`, `1`; it
is antisymmetric; it compares the parsed `float64` values (IEEE order,
with NaN comparing neither below nor above anything) exactly when
`ParseFloat` succeeds on both rendered operands, and compares the strings
byte-lexicographically otherwise; and it is transitive on triples compared
uniformly (all three operands parsed, or every pair falling back to string
comparison) — but not on mixed triples. -/
theorem compareValues_order_properties :
    (∀ a b : Cell, compareValues a b = -1 ∨ compareValues a b = 0 ∨ compareValues a b = 1) ∧
    (∀ a b : Cell, compareValues b a = -compareValues a b) ∧
    (∀ (a b : Cell) (x y : GoFloat), parseGoFloat (goFormat a) = some x →
      parseGoFloat (goFormat b) = some y → compareValues a b = numCmp x y) ∧
    (∀ a b : Cell, parseGoFloat (goFormat a) = none ∨ parseGoFloat (goFormat b) = none →
      compareValues a b = strCmp (goFormat a) (goFormat b)) ∧
    (∀ (a b c : Cell) (x y z : GoFloat), parseGoFloat (goFormat a) = some x →
      parseGoFloat (goFormat b) = some y → parseGoFloat (goFormat c) = some z →
      compareValues a b = -1 → compareValues b c = -1 → compareValues a c = -1) ∧
    (∀ a b c : Cell,
      parseGoFloat (goFormat a) = none ∨ parseGoFloat (goFormat b) = none →
      parseGoFloat (goFormat b) = none ∨ parseGoFloat (goFormat c) = none →
      parseGoFloat (goFormat a) = none ∨ parseGoFloat (goFormat c) = none →
      compareValues a b = -1 → compareValues b c = -1 → compareValues a c = -1) := by
  refine ⟨?_, ?_, ?_, ?_, ?_, ?_⟩
  · intro a b
    cases ha : parseGoFloat (goFormat a) <;> cases hb : parseGoFloat (goFormat b)
    · rw [compareValues_eq_str (Or.inl ha)]
      exact cmpCharList_range _ _
    · rw [compareValues_eq_str (Or.inl ha)]
      exact cmpCharList_range _ _
    · rw [compareValues_eq_str (Or.inr hb)]
      exact cmpCharList_range _ _
    · rw [compareValues_eq_num ha hb]
      unfold numCmp
      split_ifs <;> simp
  · intro a b
    cases ha : parseGoFloat (goFormat a) <;> cases hb : parseGoFloat (goFormat b)
    · rw [compareValues_eq_str (Or.inl ha), compareValues_eq_str (Or.inl hb)]
      exact cmpCharList_antisymm _ _
    · rw [compareValues_eq_str (Or.inl ha), compareValues_eq_str (Or.inr ha)]
      exact cmpCharList_antisymm _ _
    · rw [compareValues_eq_str (Or.inr hb), compareValues_eq_str (Or.inl hb)]
      exact cmpCharList_antisymm _ _
    · rw [compareValues_eq_num ha hb, compareValues_eq_num hb ha]
      exact numCmp_antisymm _ _
  · intro a b x y ha hb
    exact compareValues_eq_num ha hb
  · intro a b h
    exact compareValues_eq_str h
  · intro a b c x y z ha hb hc h1 h2
    rw [compareValues_eq_num ha hb, numCmp_neg_iff] at h1
    rw [compareValues_eq_num hb hc, numCmp_neg_iff] at h2
    rw [compareValues_eq_num ha hc, numCmp_neg_iff]
    exact ltF_trans h1 h2
  · intro a b c hab hbc hac h1 h2
    rw [compareValues_eq_str hab] at h1
    rw [compareValues_eq_str hbc] at h2
    rw [compareValues_eq_str hac]
    exact cmpCharList_trans_neg _ _ _ h1 h2

/-- Witness for C1: the numeric branch fires on two parsing operands, so
`compare("20","10")` is the `float64` comparison of 20 and 10 (which is
`1`), not the lexicographic order. -/
theorem compareValues_order_properties_witness :
    compareValues (.str "20") (.str "10") = numCmp (.finite 20) (.finite 10) ∧
      numCmp (.finite 20) (.finite 10) = 1 :=
  ⟨compareValues_order_properties.2.2.1 (.str "20") (.str "10")
    (.finite 20) (.finite 10) (by decide) (by decide), by decide⟩

/-! ## C2: boolean coercion in `setField` -/

/-- Counterexample to C2: `"tRuE"` is a casing variant of `"true"`, but
Go's boolean grammar rejects it, so a boolean destination field stays at
its zero value instead of being set to `true`. -/
theorem setField_bool_mixed_case_rejected :
    parseGoBool "tRuE" = none ∧
    setField .kbool (.vbool false) (.str "tRuE") = .ok (.vbool false) ∧
    setField .kbool (.vbool false) (.str "tRuE") ≠ .ok (.vbool true) := by decide

/-- C2 (amended): boolean coercion accepts exactly the `ParseBool` grammar
`1,t,T,true,TRUE,True` for true and `0,f,F,false,FALSE,False` for false
(not every casing variant); any other rendering leaves the field at its
current (zero) value; and `setField` never returns an error. -/
theorem setField_bool_grammar :
    (∀ cur : Value, ∀ s ∈ ["1", "t", "T", "true", "TRUE", "True"],
      setField .kbool cur (.str s) = .ok (.vbool true)) ∧
    (∀ cur : Value, ∀ s ∈ ["0", "f", "F", "false", "FALSE", "False"],
      setField .kbool cur (.str s) = .ok (.vbool false)) ∧
    (∀ (cur : Value) (c : Cell), parseGoBool (goFormat c) = none →
      setField .kbool cur c = .ok cur) ∧
    (∀ (k : Kind) (cur : Value) (c : Cell), ∃ v, setField k cur c = .ok v) := by
  refine ⟨?_, ?_, ?_, ?_⟩
  · intro cur s hs
    simp only [List.mem_cons, List.not_mem_nil, or_false] at hs
    rcases hs with h | h | h | h | h | h <;> subst h <;> rfl
  · intro cur s hs
    simp only [List.mem_cons, List.not_mem_nil, or_false] at hs
    rcases hs with h | h | h | h | h | h <;> subst h <;> rfl
  · intro cur c h
    simp [setField, setFieldVal, h]
  · intro k cur c
    exact ⟨_, rfl⟩

/-- Witness for C2 (amended): the canonical spelling `"True"` does set the
field to `true`. -/
theorem setField_bool_grammar_witness :
    setField .kbool (.vbool false) (.str "True") = .ok (.vbool true) :=
  setField_bool_grammar.1 (.vbool false) "True" (by decide)

/-! ## C6: the sort step is a no-op -/

/-- C6: for every grid, filter set and limit, `Get` produces exactly the
same rows with any `OrderBy` column and direction as with none: the sort
step never reorders. -/
theorem getRows_orderBy_noop (filters : List FilterM) (limit : Int)
    (orderBy : String) (descending : Bool) (grid : List (List Cell)) :
    getRows filters limit orderBy descending grid =
      getRows filters limit "" false grid := by
  cases grid with
  | nil => rfl
  | cons h t =>
    cases t with
    | nil => rfl
    | cons r rs => simp [getRows, applySort]

/-! ## C7: `applyLimit` -/

/-- C7: with a positive limit `applyLimit` returns exactly the prefix of
the first `n` surviving rows (all of them when fewer than `n` remain), so
in particular it keeps `min (length rows) n` rows; a non-positive limit
keeps everything; the row count never grows; and the operation is
idempotent. -/
theorem applyLimit_properties :
    (∀ (n : Int) (rows : List (List Cell)), 0 < n →
      applyLimit n rows = rows.take n.toNat) ∧
    (∀ (n : Int) (rows : List (List Cell)), 0 < n →
      ((applyLimit n rows).length : Int) = min (rows.length : Int) n) ∧
    (∀ (n : Int) (rows : List (List Cell)), n ≤ 0 → applyLimit n rows = rows) ∧
    (∀ (n : Int) (rows : List (List Cell)),
      (applyLimit n rows).length ≤ rows.length) ∧
    (∀ (n : Int) (rows : List (List Cell)),
      applyLimit n (applyLimit n rows) = applyLimit n rows) := by
  have hlen : ∀ (n : Int) (rows : List (List Cell)),
      (applyLimit n rows).length = if 0 < n ∧ n < (rows.length : Int)
        then n.toNat else rows.length := by
    intro n rows
    unfold applyLimit
    split_ifs with h
    · rw [List.length_take]
      omega
    · rfl
  refine ⟨?_, ?_, ?_, ?_, ?_⟩
  · intro n rows hn
    unfold applyLimit
    split_ifs with hc
    · rfl
    · rw [List.take_of_length_le (by omega)]
  · intro n rows hn
    rw [hlen]
    split_ifs with h <;> omega
  · intro n rows hn
    unfold applyLimit
    rw [if_neg (by omega)]
  · intro n rows
    rw [hlen]
    split_ifs with h <;> omega
  · intro n rows
    by_cases h : 0 < n ∧ n < (rows.length : Int)
    · have hinner : applyLimit n rows = rows.take n.toNat := by
        unfold applyLimit
        rw [if_pos h]
      have hcond : ¬(0 < n ∧ n < ((rows.take n.toNat).length : Int)) := by
        rw [List.length_take]
        omega
      rw [hinner]
      conv_lhs => unfold applyLimit
      rw [if_neg hcond]
    · have hinner : applyLimit n rows = rows := by
        unfold applyLimit
        rw [if_neg h]
      rw [hinner]
      exact hinner

/-- Witness for C7: limiting three rows to two keeps exactly the first two
rows. -/
theorem applyLimit_properties_witness :
    applyLimit 2 [[Cell.int 1], [Cell.int 2], [Cell.int 3]] =
      [[Cell.int 1], [Cell.int 2], [Cell.int 3]].take ((2 : Int)).toNat :=
  applyLimit_properties.1 2 [[Cell.int 1], [Cell.int 2], [Cell.int 3]] (by decide)

/-! ## Helper lemmas on column letters -/

theorem char_toNat_ofNat {n : Nat} (h : n < 55296) : (Char.ofNat n).toNat = n := by
  rw [Char.ofNat, dif_pos (Or.inl h)]
  rfl

theorem colLetterAux_fuel_irrel (n : Nat) : ∀ f g : Nat, n < f → n < g →
    colLetterAux f n = colLetterAux g n := by
  induction n using Nat.strong_induction_on with
  | _ n ih =>
    intro f g hf hg
    cases f with
    | zero => omega
    | succ f =>
      cases g with
      | zero => omega
      | succ g =>
        simp only [colLetterAux]
        split_ifs with h
        · rfl
        · rw [ih (n / 26 - 1) (by omega) f g (by omega) (by omega)]

theorem colLetterAux_succ (fuel i : Nat) :
    colLetterAux (fuel + 1) i = if i < 26 then [Char.ofNat (65 + i)]
      else colLetterAux fuel (i / 26 - 1) ++ [Char.ofNat (65 + i % 26)] := rfl

theorem colLetterNat_small {n : Nat} (h : n < 26) :
    colLetterNat n = [Char.ofNat (65 + n)] := by
  unfold colLetterNat
  rw [colLetterAux_succ, if_pos h]

theorem colLetterNat_large {n : Nat} (h : 26 ≤ n) :
    colLetterNat n = colLetterNat (n / 26 - 1) ++ [Char.ofNat (65 + n % 26)] := by
  unfold colLetterNat
  rw [colLetterAux_succ, if_neg (by omega : ¬n < 26),
    colLetterAux_fuel_irrel (n / 26 - 1) n (n / 26 - 1 + 1) (by omega) (by omega)]

theorem letterVal_append_singleton (l : List Char) (c : Char) :
    letterVal (l ++ [c]) = letterVal l * 26 + (c.toNat - 64) := by
  simp [letterVal, List.foldl_append]

theorem letterVal_colLetterNat (n : Nat) : letterVal (colLetterNat n) = n + 1 := by
  induction n using Nat.strong_induction_on with
  | _ n ih =>
    by_cases h : n < 26
    · rw [colLetterNat_small h]
      simp [letterVal, char_toNat_ofNat (by omega : 65 + n < 55296)]
      omega
    · rw [colLetterNat_large (by omega), letterVal_append_singleton,
        ih (n / 26 - 1) (by omega), char_toNat_ofNat (by omega : 65 + n % 26 < 55296)]
      omega

theorem colLetterNat_valid (n : Nat) :
    colLetterNat n ≠ [] ∧ ∀ c ∈ colLetterNat n, 65 ≤ c.toNat ∧ c.toNat ≤ 90 := by
  induction n using Nat.strong_induction_on with
  | _ n ih =>
    by_cases h : n < 26
    · rw [colLetterNat_small h]
      refine ⟨by simp, ?_⟩
      intro c hc
      simp only [List.mem_singleton] at hc
      subst hc
      rw [char_toNat_ofNat (by omega)]
      omega
    · rw [colLetterNat_large (by omega)]
      refine ⟨by simp, ?_⟩
      intro c hc
      rw [List.mem_append] at hc
      rcases hc with hc | hc
      · exact (ih (n / 26 - 1) (by omega)).2 c hc
      · simp only [List.mem_singleton] at hc
        subst hc
        rw [char_toNat_ofNat (by omega)]
        omega

theorem letterVal_pos (l : List Char) (h1 : l ≠ [])
    (h2 : ∀ c ∈ l, 65 ≤ c.toNat ∧ c.toNat ≤ 90) : 1 ≤ letterVal l := by
  have step : ∀ (xs : List Char) (a : Nat), 1 ≤ a →
      1 ≤ xs.foldl (fun a c => a * 26 + (c.toNat - 64)) a := by
    intro xs
    induction xs with
    | nil => intro a ha; exact ha
    | cons x xs ih =>
      intro a ha
      simp only [List.foldl_cons]
      apply ih
      omega
  cases l with
  | nil => exact absurd rfl h1
  | cons x xs =>
    have hx := h2 x (List.mem_cons_self x xs)
    simp only [letterVal, List.foldl_cons]
    exact step xs _ (by omega)

theorem colLetterNat_letterVal (l : List Char) (h1 : l ≠ [])
    (h2 : ∀ c ∈ l, 65 ≤ c.toNat ∧ c.toNat ≤ 90) :
    colLetterNat (letterVal l - 1) = l := by
  induction l using List.reverseRecOn with
  | nil => exact absurd rfl h1
  | append_singleton init c ih =>
    have hc := h2 c (by simp)
    rw [letterVal_append_singleton]
    cases hinit : init with
    | nil =>
      subst hinit
      simp only [letterVal, List.foldl_nil, Nat.zero_mul, Nat.zero_add]
      rw [colLetterNat_small (by omega)]
      have : 65 + (c.toNat - 64 - 1) = c.toNat := by omega
      rw [this, Char.ofNat_toNat]
      simp
    | cons x xs =>
      rw [← hinit]
      have hine : init ≠ [] := by rw [hinit]; simp
      have hival : ∀ d ∈ init, 65 ≤ d.toNat ∧ d.toNat ≤ 90 := by
        intro d hd
        exact h2 d (by rw [List.mem_append]; exact Or.inl hd)
      have hv := letterVal_pos init hine hival
      have hd1 : 1 ≤ c.toNat - 64 := by omega
      have hd2 : c.toNat - 64 ≤ 26 := by omega
      rw [colLetterNat_large (by omega)]
      have hdiv : (letterVal init * 26 + (c.toNat - 64) - 1) / 26 - 1 = letterVal init - 1 := by
        omega
      have hmod : (letterVal init * 26 + (c.toNat - 64) - 1) % 26 = c.toNat - 64 - 1 := by
        omega
      rw [hdiv, hmod, ih hine hival]
      have : 65 + (c.toNat - 64 - 1) = c.toNat := by omega
      rw [this, Char.ofNat_toNat]

/-! ## C9: `columnIndexToLetter` -/

/-- C9: `columnIndexToLetter` maps every negative index to `"A"`, and on the
non-negative integers it is the bijective base-26 lettering: injective,
with `letterVal` (the positional value of a letter string, `A=1 ... Z=26`
per digit) as a two-sided inverse onto the non-empty strings over `A`–`Z`,
and with `0 → A`, `25 → Z`, `26 → AA`. -/
theorem columnIndexToLetter_bijection :
    (∀ i : Int, i < 0 → columnIndexToLetter i = "A") ∧
    (∀ i : Int, 0 ≤ i → columnIndexToLetter i = ⟨colLetterNat i.toNat⟩) ∧
    (∀ m n : Nat, colLetterNat m = colLetterNat n → m = n) ∧
    (∀ n : Nat, letterVal (colLetterNat n) = n + 1) ∧
    (∀ n : Nat, colLetterNat n ≠ [] ∧ ∀ c ∈ colLetterNat n, 65 ≤ c.toNat ∧ c.toNat ≤ 90) ∧
    (∀ l : List Char, l ≠ [] → (∀ c ∈ l, 65 ≤ c.toNat ∧ c.toNat ≤ 90) →
      colLetterNat (letterVal l - 1) = l) ∧
    (columnIndexToLetter 0 = "A" ∧ columnIndexToLetter 25 = "Z" ∧
      columnIndexToLetter 26 = "AA") := by
  refine ⟨?_, ?_, ?_, letterVal_colLetterNat, colLetterNat_valid,
    colLetterNat_letterVal, by decide, by decide, by decide⟩
  · intro i hi
    unfold columnIndexToLetter
    rw [if_pos hi]
  · intro i hi
    unfold columnIndexToLetter
    rw [if_neg (by omega)]
  · intro m n h
    have := letterVal_colLetterNat m
    rw [h, letterVal_colLetterNat n] at this
    omega

/-- Witness for C9: the inverse reading applied to the concrete letter
string `AB` recovers its index `27`. -/
theorem columnIndexToLetter_bijection_witness :
    colLetterNat (letterVal [Char.ofNat 65, Char.ofNat 66] - 1) =
      [Char.ofNat 65, Char.ofNat 66] :=
  columnIndexToLetter_bijection.2.2.2.2.2.1 [Char.ofNat 65, Char.ofNat 66]
    (by decide) (by decide)

/-! ## C5: `Update` and `Delete` offset conventions -/

/-- Counterexample to C5: a record that encodes to zero cells (for example
a struct with no fields) still produces the one-column range `A:A`, whose
span covers one column, not the encoded field count zero. -/
theorem update_empty_record_span :
    update "t" 0 [] = .ok ("t!A2:A2", [[]]) ∧
    (structToValues ([] : List Field)).length = 0 ∧
    letterVal (columnIndexToLetter
      (((structToValues ([] : List Field)).length : Int) - 1)).data = 1 := by decide

/-- C5 (amended): `Update` rejects negative indices with the range error and
otherwise issues one `Write` to `name!A(r+2):(letter)(r+2)` where the end
column letter spans exactly the encoded field count whenever at least one
cell is encoded (a record encoding zero cells degenerates to the
one-column span `A:A`); `Delete` rejects negative indices with the range
error and otherwise issues one `DeleteRows` call for the single index
`rowIndex + 1`. -/
theorem update_delete_offsets :
    (∀ (name : String) (i : Int) (r : List Field), i < 0 →
      update name i r = .error "row index cannot be negative") ∧
    (∀ (name : String) (i : Int) (r : List Field), 0 ≤ i →
      update name i r = .ok (name ++ "!A" ++ intToDec (i + 2) ++ ":" ++
        columnIndexToLetter (((structToValues r).length : Int) - 1) ++ intToDec (i + 2),
        [structToValues r])) ∧
    (∀ r : List Field, 1 ≤ (structToValues r).length →
      letterVal (columnIndexToLetter
        (((structToValues r).length : Int) - 1)).data = (structToValues r).length) ∧
    (∀ (name : String) (i : Int), i < 0 →
      deleteRow name i = .error "row index cannot be negative") ∧
    (∀ (name : String) (i : Int), 0 ≤ i → deleteRow name i = .ok (name, [i + 1])) := by
  refine ⟨?_, ?_, ?_, ?_, ?_⟩
  · intro name i r hi
    unfold update
    rw [if_pos hi]
  · intro name i r hi
    unfold update
    rw [if_neg (by omega)]
  · intro r hr
    set k := (structToValues r).length with hk
    have hnn : ¬((k : Int) - 1 < 0) := by omega
    unfold columnIndexToLetter
    rw [if_neg hnn]
    have htn : ((k : Int) - 1).toNat = k - 1 := by omega
    rw [htn]
    show letterVal (colLetterNat (k - 1)) = k
    rw [letterVal_colLetterNat]
    omega
  · intro name i hi
    unfold deleteRow
    rw [if_pos hi]
  · intro name i hi
    unfold deleteRow
    rw [if_neg (by omega)]

/-- Witness for C5 (amended): updating row 3 with a two-field record writes
the range `t!A5:B5` (offset `+2`), the two-column span `A:B` covers the two
encoded fields, and deleting row 3 issues the single index 4 (offset `+1`). -/
theorem update_delete_offsets_witness :
    update "t" 3 [⟨"A", .kstr, false, .vstr "v"⟩, ⟨"B", .kint, false, .vint 5⟩] =
      .ok ("t!A5:B5", [[.str "v", .int 5]]) ∧
    letterVal (columnIndexToLetter
      (((structToValues [⟨"A", .kstr, false, .vstr "v"⟩,
        ⟨"B", .kint, false, .vint 5⟩]).length : Int) - 1)).data = 2 ∧
    deleteRow "t" 3 = .ok ("t", [4]) := by
  refine ⟨?_, ?_, ?_⟩
  · have h := update_delete_offsets.2.1 "t" 3
      [⟨"A", .kstr, false, .vstr "v"⟩, ⟨"B", .kint, false, .vint 5⟩] (by decide)
    rw [h]
    decide
  · exact update_delete_offsets.2.2.1
      [⟨"A", .kstr, false, .vstr "v"⟩, ⟨"B", .kint, false, .vint 5⟩] (by decide)
  · exact update_delete_offsets.2.2.2.2 "t" 3 (by decide)

/-! ## Helper lemmas on `DeleteWhere` -/

theorem matchingIndices_pairwise_lt (rows : List (List Cell)) (headers : List Cell)
    (f : FilterM) : (matchingIndices rows headers f).Pairwise (· < ·) := by
  unfold matchingIndices
  have h1 : List.Sublist (rows.enum.filter (fun p => matchesFilter p.2 headers f))
      rows.enum :=
    List.filter_sublist _
  have h2 := h1.map Prod.fst
  rw [List.enum_map_fst] at h2
  exact List.Pairwise.sublist h2 (List.pairwise_lt_range _)

theorem sortDesc_sorted (l : List Int) : (sortDesc l).Pairwise (· ≥ ·) :=
  List.sorted_insertionSort _ l

theorem sortDesc_perm (l : List Int) : (sortDesc l).Perm l :=
  List.perm_insertionSort _ l

/-! ## C4: `DeleteWhere` -/

/-- C4: on a grid with a header and at least one data row, `DeleteWhere`
issues exactly one batched `DeleteRows` call whose index list is a
permutation of the matching 0-based positions shifted by one, arranged in
strictly descending order; with zero matches, or on a grid shorter than two
rows, it issues no call. -/
theorem deleteWhere_batches_descending :
    (∀ (name : String) (headers row0 : List Cell) (rows : List (List Cell)) (f : FilterM),
      matchingIndices (row0 :: rows) headers f ≠ [] →
      ∃ l, deleteWhere name (headers :: row0 :: rows) f = [(name, l)] ∧
        l.Perm ((matchingIndices (row0 :: rows) headers f).map (fun i => Int.ofNat i + 1)) ∧
        l.Pairwise (· > ·)) ∧
    (∀ (name : String) (headers row0 : List Cell) (rows : List (List Cell)) (f : FilterM),
      matchingIndices (row0 :: rows) headers f = [] →
      deleteWhere name (headers :: row0 :: rows) f = []) ∧
    (∀ (name : String) (grid : List (List Cell)) (f : FilterM),
      grid.length < 2 → deleteWhere name grid f = []) := by
  refine ⟨?_, ?_, ?_⟩
  · intro name headers row0 rows f hM
    have hmap : (matchingIndices (row0 :: rows) headers f).map (fun i => Int.ofNat i + 1) ≠ [] := by
      intro hc
      exact hM (List.map_eq_nil_iff.mp hc)
    refine ⟨sortDesc ((matchingIndices (row0 :: rows) headers f).map (fun i => Int.ofNat i + 1)),
      ?_, sortDesc_perm _, ?_⟩
    · simp only [deleteWhere]
      rw [if_neg hmap]
    · have hplt := matchingIndices_pairwise_lt (row0 :: rows) headers f
      have hmlt : ((matchingIndices (row0 :: rows) headers f).map
          (fun i => Int.ofNat i + 1)).Pairwise (· < ·) := by
        refine List.Pairwise.map _ ?_ hplt
        intro a b h
        show (a : Int) + 1 < (b : Int) + 1
        omega
      have hnd : ((matchingIndices (row0 :: rows) headers f).map
          (fun i => Int.ofNat i + 1)).Nodup :=
        hmlt.imp (fun h => ne_of_lt h)
      have hnd2 : (sortDesc ((matchingIndices (row0 :: rows) headers f).map
          (fun i => Int.ofNat i + 1))).Nodup := ((sortDesc_perm _).nodup_iff).mpr hnd
      have hs := sortDesc_sorted ((matchingIndices (row0 :: rows) headers f).map
        (fun i => Int.ofNat i + 1))
      exact (hs.and hnd2).imp (fun h => lt_of_le_of_ne h.1 (Ne.symm h.2))
  · intro name headers row0 rows f hM
    have hmap : (matchingIndices (row0 :: rows) headers f).map (fun i => Int.ofNat i + 1) = [] := by
      rw [hM]
      rfl
    simp only [deleteWhere]
    rw [if_pos hmap]
  · intro name grid f hlen
    cases grid with
    | nil => rfl
    | cons h t =>
      cases t with
      | nil => rfl
      | cons r rs =>
        simp only [List.length_cons] at hlen
        omega

/-- Witness for C4: two of three data rows match, and the single batched
call carries their shifted positions `3, 1` in strictly descending order. -/
theorem deleteWhere_batches_descending_witness :
    ∃ l, deleteWhere "t" [[Cell.str "A"], [Cell.str "x"], [Cell.str "y"], [Cell.str "x"]]
        ⟨"A", "=", Cell.str "x"⟩ = [("t", l)] ∧
      l.Perm ((matchingIndices [[Cell.str "x"], [Cell.str "y"], [Cell.str "x"]]
        [Cell.str "A"] ⟨"A", "=", Cell.str "x"⟩).map (fun i => Int.ofNat i + 1)) ∧
      l.Pairwise (· > ·) :=
  deleteWhere_batches_descending.1 "t" [Cell.str "A"] [Cell.str "x"]
    [[Cell.str "y"], [Cell.str "x"]] ⟨"A", "=", Cell.str "x"⟩ (by decide)

/-! ## C8: short grids -/

/-- C8: on a grid with fewer than two rows (empty, or header only), every
query yields zero results and no error, and `UpdateWhere` and `DeleteWhere`
succeed while issuing no `Write` or `DeleteRows` calls. -/
theorem short_grid_no_calls :
    ∀ grid : List (List Cell), grid.length < 2 →
      (∀ (filters : List FilterM) (limit : Int) (orderBy : String) (descending : Bool),
        getRows filters limit orderBy descending grid = []) ∧
      (∀ (name : String) (f : FilterM) (record : List Field),
        updateWhere name grid f record = []) ∧
      (∀ (name : String) (f : FilterM), deleteWhere name grid f = []) := by
  intro grid hlen
  cases grid with
  | nil => exact ⟨fun _ _ _ _ => rfl, fun _ _ _ => rfl, fun _ _ => rfl⟩
  | cons h t =>
    cases t with
    | nil => exact ⟨fun _ _ _ _ => rfl, fun _ _ _ => rfl, fun _ _ => rfl⟩
    | cons r rs =>
      simp only [List.length_cons] at hlen
      omega

/-- Witness for C8: a header-only grid produces no rows from a query and no
collaborator calls from the bulk mutations. -/
theorem short_grid_no_calls_witness :
    getRows [] 5 "Age" true [[Cell.str "A"]] = [] ∧
    updateWhere "t" [[Cell.str "A"]] ⟨"A", "=", Cell.str "x"⟩ [] = [] ∧
    deleteWhere "t" [[Cell.str "A"]] ⟨"A", "=", Cell.str "x"⟩ = [] := by
  have h := short_grid_no_calls [[Cell.str "A"]] (by decide)
  exact ⟨h.1 [] 5 "Age" true, h.2.1 "t" ⟨"A", "=", Cell.str "x"⟩ [],
    h.2.2 "t" ⟨"A", "=", Cell.str "x"⟩⟩

/-! ## Helper lemmas on decoding -/

theorem scanRow_eq_ok (row headers : List Cell) (dest : List Field) :
    scanRow row headers dest = .ok (dest.map (scanStep row headers)) := by
  induction dest with
  | nil => rfl
  | cons f fs ih =>
    cases hig : f.ignored with
    | true =>
      simp [scanRow, scanStep, hig, ih]
      rfl
    | false =>
      cases hfc : findCol headers f.name with
      | none =>
        simp [scanRow, scanStep, hig, hfc, ih]
        rfl
      | some j =>
        cases hrg : row[j]? with
        | none =>
          simp [scanRow, scanStep, hig, hfc, hrg, ih]
          rfl
        | some c =>
          simp [scanRow, scanStep, hig, hfc, hrg, setField, ih]
          rfl

theorem findCol_eq_none (headers : List Cell) (name : String)
    (h : ∀ c ∈ headers, c ≠ Cell.str name) : findCol headers name = none := by
  induction headers with
  | nil => rfl
  | cons c rest ih =>
    simp only [findCol]
    rw [if_neg (h c (List.mem_cons_self c rest)),
      ih (fun d hd => h d (List.mem_cons_of_mem c hd))]
    rfl

/-! ## C10: non-string header cells never resolve a column name -/

/-- C10: header lookup matches a cell only when it is the string equal to
the column name.  When no header cell is that string (in particular when
the intended cell holds a number or boolean), every filter on that column
rejects every row — alone in `matchesFilter` and inside any `matchesFilters`
conjunction — and decoding leaves every destination field bound to that
column untouched at its initial (zero) value. -/
theorem nonstring_header_cell_never_matches :
    ∀ (headers : List Cell) (name : String),
      (∀ c ∈ headers, c ≠ Cell.str name) →
      (∀ (row : List Cell) (op : String) (v : Cell),
        matchesFilter row headers ⟨name, op, v⟩ = false) ∧
      (∀ (filters : List FilterM) (row : List Cell),
        (∃ f ∈ filters, f.column = name) → matchesFilters filters row headers = false) ∧
      (∀ (row : List Cell) (dest out : List Field),
        scanRow row headers dest = .ok out →
        out = dest.map (scanStep row headers) ∧
        ∀ f ∈ dest, f.name = name → scanStep row headers f = f) := by
  intro headers name hno
  have hfc := findCol_eq_none headers name hno
  refine ⟨?_, ?_, ?_⟩
  · intro row op v
    simp [matchesFilter, hfc]
  · intro filters row h
    rcases h with ⟨f, hf, hcol⟩
    cases hall : matchesFilters filters row headers
    · rfl
    · exfalso
      unfold matchesFilters at hall
      have hp := List.all_eq_true.mp hall f hf
      rw [hcol, hfc] at hp
      simp at hp
  · intro row dest out hscan
    rw [scanRow_eq_ok] at hscan
    refine ⟨(Except.ok.inj hscan).symm, ?_⟩
    intro f hf hname
    unfold scanStep
    rw [hname, hfc]
    simp

/-- Witness for C10: a numeric header cell whose rendering is `"5"` still
never matches the column name `"5"`, so the filter rejects the row. -/
theorem nonstring_header_cell_never_matches_witness :
    matchesFilter [Cell.str "x"] [Cell.int 5, Cell.bool true]
      ⟨"5", "=", Cell.str "x"⟩ = false :=
  (nonstring_header_cell_never_matches [Cell.int 5, Cell.bool true] "5"
    (by decide)).1 [Cell.str "x"] "=" (Cell.str "x")

/-! ## Helper lemmas on decimal rendering and parsing -/

theorem natDigitsAux_succ (fuel n : Nat) :
    natDigitsAux (fuel + 1) n = if n < 10 then [digitChar n]
      else natDigitsAux fuel (n / 10) ++ [digitChar (n % 10)] := rfl

theorem natDigitsAux_fuel_irrel (n : Nat) : ∀ f g : Nat, n < f → n < g →
    natDigitsAux f n = natDigitsAux g n := by
  induction n using Nat.strong_induction_on with
  | _ n ih =>
    intro f g hf hg
    cases f with
    | zero => omega
    | succ f =>
      cases g with
      | zero => omega
      | succ g =>
        rw [natDigitsAux_succ, natDigitsAux_succ]
        split_ifs with h
        · rfl
        · rw [ih (n / 10) (by omega) f g (by omega) (by omega)]

theorem natDigits_small {n : Nat} (h : n < 10) : natDigits n = [digitChar n] := by
  unfold natDigits
  rw [natDigitsAux_succ, if_pos h]

theorem natDigits_large {n : Nat} (h : 10 ≤ n) :
    natDigits n = natDigits (n / 10) ++ [digitChar (n % 10)] := by
  unfold natDigits
  rw [natDigitsAux_succ, if_neg (by omega : ¬n < 10),
    natDigitsAux_fuel_irrel (n / 10) n (n / 10 + 1) (by omega) (by omega)]

theorem digitChar_toNat {n : Nat} (h : n < 10) : (digitChar n).toNat = 48 + n :=
  char_toNat_ofNat (by omega)

theorem digitChar_isDigit {n : Nat} (h : n < 10) : isDigit (digitChar n) = true := by
  simp only [isDigit, digitChar_toNat h]
  simp only [decide_eq_true_eq, Bool.and_eq_true]
  omega

theorem digitsToNat_append_singleton (l : List Char) (c : Char) :
    digitsToNat (l ++ [c]) = digitsToNat l * 10 + (c.toNat - 48) := by
  simp [digitsToNat, List.foldl_append]

theorem digitsToNat_natDigits (n : Nat) : digitsToNat (natDigits n) = n := by
  induction n using Nat.strong_induction_on with
  | _ n ih =>
    by_cases h : n < 10
    · rw [natDigits_small h]
      simp [digitsToNat, digitChar_toNat h]
    · rw [natDigits_large (by omega), digitsToNat_append_singleton,
        ih (n / 10) (by omega), digitChar_toNat (by omega : n % 10 < 10)]
      omega

theorem natDigits_ne_nil (n : Nat) : natDigits n ≠ [] := by
  by_cases h : n < 10
  · rw [natDigits_small h]
    simp
  · rw [natDigits_large (by omega)]
    simp

theorem natDigits_all_isDigit (n : Nat) : ∀ c ∈ natDigits n, isDigit c = true := by
  induction n using Nat.strong_induction_on with
  | _ n ih =>
    by_cases h : n < 10
    · rw [natDigits_small h]
      intro c hc
      simp only [List.mem_singleton] at hc
      subst hc
      exact digitChar_isDigit h
    · rw [natDigits_large (by omega)]
      intro c hc
      rw [List.mem_append] at hc
      rcases hc with hc | hc
      · exact ih (n / 10) (by omega) c hc
      · simp only [List.mem_singleton] at hc
        subst hc
        exact digitChar_isDigit (by omega : n % 10 < 10)

theorem isDigit_ne_signs {c : Char} (h : isDigit c = true) : c ≠ '-' ∧ c ≠ '+' :=
  ⟨fun he => by subst he; exact absurd h (by decide),
   fun he => by subst he; exact absurd h (by decide)⟩

theorem splitSign_all_digits {l : List Char} (h : ∀ c ∈ l, isDigit c = true) :
    splitSign l = (false, l) := by
  cases l with
  | nil => rfl
  | cons c r =>
    have hc := isDigit_ne_signs (h c (List.mem_cons_self c r))
    simp [splitSign, hc.1, hc.2]

theorem parseGoInt_mk_digits (l : List Char) (hne : l ≠ [])
    (hall : ∀ c ∈ l, isDigit c = true) (hv : digitsToNat l < 2 ^ 63) :
    parseGoInt ⟨l⟩ = some (Int.ofNat (digitsToNat l)) := by
  unfold parseGoInt
  rw [show (String.mk l).data = l from rfl, splitSign_all_digits hall]
  simp only []
  rw [if_pos ⟨hne, List.all_eq_true.mpr hall⟩, if_neg (by simp), if_pos hv]
  rfl

theorem parseGoInt_mk_neg_digits (l : List Char) (hne : l ≠ [])
    (hall : ∀ c ∈ l, isDigit c = true) (hv : digitsToNat l ≤ 2 ^ 63) :
    parseGoInt ⟨'-' :: l⟩ = some (-(digitsToNat l : Int)) := by
  unfold parseGoInt
  rw [show (String.mk ('-' :: l)).data = '-' :: l from rfl,
    show splitSign ('-' :: l) = (true, l) from by simp [splitSign]]
  simp only []
  rw [if_pos ⟨hne, List.all_eq_true.mpr hall⟩, if_pos trivial, if_pos hv]

theorem parseGoInt_intToDec (n : Int) (h1 : -(2 ^ 63) ≤ n) (h2 : n < 2 ^ 63) :
    parseGoInt (intToDec n) = some n := by
  by_cases hn : n < 0
  · unfold intToDec
    rw [if_pos hn,
      parseGoInt_mk_neg_digits (natDigits n.natAbs) (natDigits_ne_nil _)
        (natDigits_all_isDigit _) (by rw [digitsToNat_natDigits]; omega),
      digitsToNat_natDigits]
    congr 1
    omega
  · unfold intToDec
    rw [if_neg hn,
      parseGoInt_mk_digits (natDigits n.toNat) (natDigits_ne_nil _)
        (natDigits_all_isDigit _) (by rw [digitsToNat_natDigits]; omega),
      digitsToNat_natDigits]
    congr 1
    show ((n.toNat : Nat) : Int) = n
    omega

theorem parseGoUint_mk_digits (l : List Char) (hne : l ≠ [])
    (hall : ∀ c ∈ l, isDigit c = true) (hv : digitsToNat l < 2 ^ 64) :
    parseGoUint ⟨l⟩ = some (digitsToNat l) := by
  unfold parseGoUint
  rw [show (String.mk l).data = l from rfl]
  simp only []
  rw [if_pos ⟨hne, List.all_eq_true.mpr hall⟩, if_pos hv]

theorem parseGoUint_natDigits (n : Nat) (h : n < 2 ^ 64) :
    parseGoUint ⟨natDigits n⟩ = some n := by
  rw [parseGoUint_mk_digits (natDigits n) (natDigits_ne_nil _)
    (natDigits_all_isDigit _) (by rw [digitsToNat_natDigits]; omega),
    digitsToNat_natDigits]

/-! ## Helper lemmas on the codec -/

theorem intToDec_natCast (n : Nat) : intToDec (n : Int) = ⟨natDigits n⟩ := by
  unfold intToDec
  rw [if_neg (by omega)]
  simp

theorem setFieldVal_roundTrip (k : Kind) (v cur : Value) (hk : k ≠ Kind.kother)
    (hwt : wellTypedB k v = true) : setFieldVal k cur (encodeValue v) = v := by
  cases k <;> cases v <;> simp only [wellTypedB, Bool.false_eq_true] at hwt
  case kother.vother => exact absurd rfl hk
  · rfl
  · rename_i n
    rw [Bool.and_eq_true, decide_eq_true_eq, decide_eq_true_eq] at hwt
    simp only [setFieldVal, encodeValue, goFormat]
    rw [parseGoInt_intToDec n hwt.1 hwt.2]
  · rename_i n
    rw [decide_eq_true_eq] at hwt
    simp only [setFieldVal, encodeValue, goFormat]
    rw [intToDec_natCast n, parseGoUint_natDigits n hwt]
  · rename_i b
    cases b <;> rfl

theorem structToValues_eq_map {fields : List Field}
    (h : ∀ f ∈ fields, f.ignored = false) :
    structToValues fields = fields.map (fun f => encodeValue f.val) := by
  induction fields with
  | nil => rfl
  | cons f fs ih =>
    have hf := h f (List.mem_cons_self f fs)
    simp [structToValues, hf, ih (fun g hg => h g (List.mem_cons_of_mem f hg))]

theorem findCol_map_str_nodup :
    ∀ (fields : List Field), (fields.map Field.name).Nodup →
      ∀ (i : Nat) (hi : i < fields.length),
        findCol (fields.map (fun f => Cell.str f.name)) fields[i].name = some i := by
  intro fields
  induction fields with
  | nil =>
    intro _ i hi
    simp at hi
  | cons f fs ih =>
    intro hnd i hi
    obtain ⟨hnotin, hnd'⟩ : (∀ x ∈ fs, ¬x.name = f.name) ∧
        (fs.map Field.name).Nodup := by simpa using hnd
    cases i with
    | zero => simp [findCol]
    | succ j =>
      have hj : j < fs.length := by simpa using hi
      have hget : (f :: fs)[j + 1] = fs[j] := rfl
      rw [hget]
      simp only [List.map_cons, findCol]
      rw [if_neg ?hne, ih hnd' j hj]
      · rfl
      case hne =>
        intro hc
        have hnames : f.name = fs[j].name := by injection hc
        exact hnotin fs[j] (fs.getElem_mem hj) hnames.symm

/-! ## C3: round-trip of the record codec -/

/-- Counterexample to C3, in two parts.  First, encoding is positional
while decoding resolves names against the header, so decoding an encoded
two-field record against the same column names in reversed order swaps the
two values instead of reproducing the record.  Second, even with the
declaration-order header the round-trip fails for a structure with a field
of an untouched kind (pointer, map, interface): `setField` has no case for
it, so a non-nil pointer field decodes back to its nil zero value. -/
theorem decode_permuted_header_differs :
    (scanRow (structToValues
        [⟨"A", .kstr, false, .vstr "x"⟩, ⟨"B", .kstr, false, .vstr "y"⟩])
      [Cell.str "B", Cell.str "A"]
      (([⟨"A", .kstr, false, .vstr "x"⟩, ⟨"B", .kstr, false, .vstr "y"⟩] :
        List Field).map zeroOf) =
      .ok [⟨"A", .kstr, false, .vstr "y"⟩, ⟨"B", .kstr, false, .vstr "x"⟩] ∧
    ([⟨"A", .kstr, false, .vstr "y"⟩, ⟨"B", .kstr, false, .vstr "x"⟩] : List Field) ≠
      [⟨"A", .kstr, false, .vstr "x"⟩, ⟨"B", .kstr, false, .vstr "y"⟩]) ∧
    (scanRow (structToValues
        [⟨"A", .kstr, false, .vstr "x"⟩, ⟨"P", .kother, false, .vother "0xc000010018"⟩])
      [Cell.str "A", Cell.str "P"]
      (([⟨"A", .kstr, false, .vstr "x"⟩, ⟨"P", .kother, false, .vother "0xc000010018"⟩] :
        List Field).map zeroOf) =
      .ok [⟨"A", .kstr, false, .vstr "x"⟩, ⟨"P", .kother, false, .vother "<nil>"⟩] ∧
    ([⟨"A", .kstr, false, .vstr "x"⟩, ⟨"P", .kother, false, .vother "<nil>"⟩] : List Field) ≠
      [⟨"A", .kstr, false, .vstr "x"⟩, ⟨"P", .kother, false, .vother "0xc000010018"⟩]) := by
  decide

/-- C3 (amended): for every record whose fields are of the coercible kinds
(string, 64-bit integer and unsigned, boolean — not of the kinds
`setField` leaves untouched), with no ignored fields, pairwise distinct
column names, and well-typed field values, decoding the encoded row
against the header that lists the column names in declaration order
reproduces the record field for field; for headers in a different order
decoding reads other positions of the positional row, and a field of an
untouched kind keeps its zero value, so neither case need reproduce the
record. -/
theorem encode_decode_roundTrip (fields : List Field)
    (hk : ∀ f ∈ fields, f.kind ≠ Kind.kother)
    (hnig : ∀ f ∈ fields, f.ignored = false)
    (hwt : ∀ f ∈ fields, wellTypedB f.kind f.val = true)
    (hnd : (fields.map Field.name).Nodup) :
    scanRow (structToValues fields) (fields.map (fun f => Cell.str f.name))
      (fields.map zeroOf) = .ok fields := by
  rw [scanRow_eq_ok]
  congr 1
  apply List.ext_getElem
  · simp
  · intro i h1 h2
    have hlen : i < fields.length := by simpa using h2
    simp only [List.getElem_map]
    have hmem : fields[i] ∈ fields := fields.getElem_mem hlen
    have hig : (zeroOf fields[i]).ignored = false := hnig fields[i] hmem
    have hname : (zeroOf fields[i]).name = fields[i].name := rfl
    have hrow : (structToValues fields)[i]? = some (encodeValue fields[i].val) := by
      rw [structToValues_eq_map hnig]
      rw [List.getElem?_map, List.getElem?_eq_getElem hlen]
      rfl
    have hkind : (zeroOf fields[i]).kind = fields[i].kind := rfl
    have hzval : (zeroOf fields[i]).val = zeroValue fields[i].kind := rfl
    unfold scanStep
    simp only [hig, Bool.false_eq_true, if_false, hname,
      findCol_map_str_nodup fields hnd i hlen, hrow, hkind, hzval,
      setFieldVal_roundTrip _ _ _ (hk _ hmem) (hwt _ hmem)]
    rw [← hnig fields[i] hmem]

/-- Witness for C3 (amended): a four-field record covering all modelled
kinds round-trips through encoding and name-keyed decoding against its
declaration-order header. -/
theorem encode_decode_roundTrip_witness :
    scanRow (structToValues
        [⟨"ID", .kint, false, .vint 7⟩, ⟨"Name", .kstr, false, .vstr "Alice"⟩,
          ⟨"Ok", .kbool, false, .vbool true⟩, ⟨"N", .kuint, false, .vuint 3⟩])
      (([⟨"ID", .kint, false, .vint 7⟩, ⟨"Name", .kstr, false, .vstr "Alice"⟩,
          ⟨"Ok", .kbool, false, .vbool true⟩, ⟨"N", .kuint, false, .vuint 3⟩] :
        List Field).map (fun f => Cell.str f.name))
      (([⟨"ID", .kint, false, .vint 7⟩, ⟨"Name", .kstr, false, .vstr "Alice"⟩,
          ⟨"Ok", .kbool, false, .vbool true⟩, ⟨"N", .kuint, false, .vuint 3⟩] :
        List Field).map zeroOf) =
      .ok [⟨"ID", .kint, false, .vint 7⟩, ⟨"Name", .kstr, false, .vstr "Alice"⟩,
          ⟨"Ok", .kbool, false, .vbool true⟩, ⟨"N", .kuint, false, .vuint 3⟩] :=
  encode_decode_roundTrip
    [⟨"ID", .kint, false, .vint 7⟩, ⟨"Name", .kstr, false, .vstr "Alice"⟩,
      ⟨"Ok", .kbool, false, .vbool true⟩, ⟨"N", .kuint, false, .vuint 3⟩]
    (by decide) (by decide) (by decide) (by decide)

end Quire
